import Mathlib

/-!
Verification of the constraint-representation layer of hpp-constraints.

This file gives a shallow embedding, in Lean 4, of the parts of the
repository relevant to the properties under study: the differentiable
function contract (include/hpp/_constraints/differentiable-function.hh),
the explicit-constraint composition layer (src/explicit.cc), the
configuration-distance constraint (src/configuration-constraint.cc), the
convex-shape contact constraint (src/_constraints/convex-shape-contact.cc)
and the input-variable computation for explicit relative-pose constraints
(src/explicit/input-configurations.hh).

Machine scalars are modelled by exact rationals, Eigen vectors by lists of
rationals, Eigen dynamic matrices by lists of rows.  Fallible C++ code
(assertion failures, thrown std::logic_error) is modelled with Option and
Except.  External collaborators that the repository only calls (the
hpp-pinocchio Lie-group layer, Eigen::BlockIndex) are modelled from the
specification and are marked as such in their doc comments.
-/

set_option autoImplicit false

namespace HppConstraints

/-- An Eigen vector of scalars (`vector_t`), modelled as a list of exact
rationals. -/
abbrev Vec := List ℚ

/-- An Eigen dynamic matrix (`matrix_t`), modelled as its list of rows. -/
abbrev MatQ := List (List ℚ)

/-- A `segment_t` is a pair (first index, length), as in
`Eigen::BlockIndex::segment_t`. -/
abbrev Segment := ℕ × ℕ

/-- A `segments_t` is a list of segments. -/
abbrev Segments := List Segment

/-- Dot product of two rows. -/
def dotQ (u v : List ℚ) : ℚ := (List.zipWith (fun a b => a * b) u v).sum

/-- Column `j` of a row-list matrix. -/
def matCol (B : MatQ) (j : ℕ) : List ℚ := B.map (fun r => r.getD j 0)

/-- Matrix product for row-list matrices. -/
def matMul (A B : MatQ) : MatQ :=
  A.map (fun row => (List.range (B.headD []).length).map
    (fun j => dotQ row (matCol B j)))

/-- Componentwise addition of vectors (plain vector-space addition, the
operation the specification contrasts with Lie-group integration). -/
def vecAdd (u v : Vec) : Vec := List.zipWith (fun a b => a + b) u v

/-- Membership of an index in the union of a list of segments. -/
def inSegments (segs : Segments) (v : ℕ) : Prop :=
  ∃ s ∈ segs, s.1 ≤ v ∧ v < s.1 + s.2

instance (segs : Segments) (v : ℕ) : Decidable (inSegments segs v) := by
  unfold inSegments; infer_instance

/-- Modelled from the spec: `Eigen::BlockIndex::cardinal`, the total number
of indices covered by a list of segments (the indexed-view utility of
include/hpp/constraints/matrix-view.hh; the `BlockIndex` helper itself is
not among the sources, only its callers are). -/
def BlockIndex.cardinal (segs : Segments) : ℕ := (segs.map (fun s => s.2)).sum

/-- Modelled from the spec: `Eigen::BlockIndex::shrink`, which merges
adjacent segments of an ordered segment list into maximal segments. -/
def BlockIndex.shrink : Segments → Segments
  | [] => []
  | s :: r =>
    match BlockIndex.shrink r with
    | [] => [s]
    | t :: r2 => if s.1 + s.2 = t.1 then (s.1, s.2 + t.2) :: r2 else s :: t :: r2

/-- The comparison types of the residual layer
(`hpp::constraints::ComparisonType`). -/
inductive ComparisonType
  | Equality
  | EqualToZero
  | GreaterOrEqual
  | LessOrEqual
deriving DecidableEq

/-!  ## Lie-group layer

The output space of an explicit function is a `hpp::pinocchio::LiegroupSpace`.
That class lives in hpp-pinocchio, outside this repository; only its
interface is used here.  Following the specification, a space carries its
own addition/retraction operator (`integrate`, used by
`LiegroupElement::operator+=`) together with the two partial differentials
of that operator (`dIntegrate_dq`, the differential with respect to the
configuration/base-point argument, and `dIntegrate_dv`, the differential
with respect to the tangent-direction argument), each an nv×nv matrix in
tangent coordinates. -/

/-- Modelled from the spec: a `hpp::pinocchio::LiegroupSpace` with its
retraction operator and the two partial differentials of the retraction. -/
structure LiegroupSpaceModel where
  nq : ℕ
  nv : ℕ
  integrate : Vec → Vec → Vec
  dIntegrate_dq : Vec → Vec → MatQ
  dIntegrate_dv : Vec → Vec → MatQ

/-- A `hpp::pinocchio::LiegroupElement`: a point of a Lie-group space,
given by its space and its configuration coordinates. -/
structure LiegroupElementM where
  space : LiegroupSpaceModel
  q : Vec

/-- Modelled from the spec: `LiegroupElement::operator+=`, which combines
an element with a tangent vector through the space's own integrate
(retraction) operator. -/
def LiegroupElementM.add (p : LiegroupElementM) (v : Vec) : LiegroupElementM :=
  { p with q := p.space.integrate p.q v }

/-- The wrapped explicit function of an `Explicit` constraint: a
differentiable function together with its output Lie-group space
(`inputToOutput_` in src/explicit.cc).  `value qin` is the coordinate
vector of the output element at `qin` and `jacobianAt qin` its Jacobian. -/
structure ExplicitFunctionModel where
  outputSpace : LiegroupSpaceModel
  value : Vec → Vec
  jacobianAt : Vec → MatQ

/-- Eigen `isZero` on a vector, modelled exactly (Eigen uses a default
numerical tolerance; with exact rational scalars the model is exact). -/
def vecIsZero (v : Vec) : Bool := v.all (fun x => x = 0)

/-- `hpp::constraints::Explicit` (src/explicit.cc): the wrapped explicit
function, the comparison types stored by the `Implicit` base, and the four
index-segment sets. -/
structure Explicit where
  inputToOutput : ExplicitFunctionModel
  comp : List ComparisonType
  inputConf : Segments
  outputConf : Segments
  inputVelocity : Segments
  outputVelocity : Segments

/-- `defaultCompTypes` of src/explicit.cc (lines 62-72): when the caller
supplies no comparison types and the output-velocity segments have positive
cardinality n, produce n times `EqualToZero`; otherwise return the given
vector unchanged. -/
def defaultCompTypes (outputVelocity : Segments) (comp : List ComparisonType) :
    List ComparisonType :=
  if comp.length = 0 then
    let n := BlockIndex.cardinal outputVelocity
    if 0 < n then List.replicate n ComparisonType.EqualToZero
    else comp
  else comp

/-- `Explicit::create` of src/explicit.cc (lines 74-90): builds the
constraint, passing `defaultCompTypes (outputVelocity, comp)` to the
constructor, which stores it in the `Implicit` base and records the four
segment sets.  (The shared-pointer plumbing and the construction of the
associated implicit-formulation function are not modelled.) -/
def Explicit.create (function : ExplicitFunctionModel)
    (inputConf outputConf inputVelocity outputVelocity : Segments)
    (comp : List ComparisonType) : Explicit :=
  { inputToOutput := function
    comp := defaultCompTypes outputVelocity comp
    inputConf := inputConf
    outputConf := outputConf
    inputVelocity := inputVelocity
    outputVelocity := outputVelocity }

/-- `Explicit::outputValue` of src/explicit.cc (lines 103-108): writes the
value of the wrapped explicit function at `qin` into `result`, then
executes `result += rhs`, the Lie-group combination of the element with the
tangent vector `rhs`. -/
def Explicit.outputValue (E : Explicit) (qin rhs : Vec) : LiegroupElementM :=
  let result : LiegroupElementM := ⟨E.inputToOutput.outputSpace, E.inputToOutput.value qin⟩
  result.add rhs

/-- `dIntegrate_dq<DerivativeTimesInput>` of the output space: replaces the
matrix argument `J` by the product of the differential of the retraction
with respect to its configuration (base-point) argument, evaluated at
`(q, v)`, with `J`. -/
def dIntegrateDqTimesInput (S : LiegroupSpaceModel) (q v : Vec) (J : MatQ) : MatQ :=
  matMul (S.dIntegrate_dq q v) J

/-- `Explicit::jacobianOutputValue` of src/explicit.cc (lines 110-120):
stores the Jacobian of the explicit function at `qin`, then, when `rhs` is
not zero, replaces it by `dIntegrate_dq<DerivativeTimesInput>` evaluated at
`(f_value, rhs)` applied to it. -/
def Explicit.jacobianOutputValue (E : Explicit) (qin f_value rhs : Vec) : MatQ :=
  let jacobian := E.inputToOutput.jacobianAt qin
  if vecIsZero rhs = false then
    dIntegrateDqTimesInput E.inputToOutput.outputSpace f_value rhs jacobian
  else jacobian

/-- The claim's reading of `jacobianOutputValue`, written from the spec's
words for refinement comparison: the correction term is the differential of
the retraction with respect to its tangent-direction argument, evaluated at
the base point `f_value` and `rhs`. -/
def Explicit.jacobianOutputValueSpec (E : Explicit) (qin f_value rhs : Vec) : MatQ :=
  let jacobian := E.inputToOutput.jacobianAt qin
  if vecIsZero rhs = false then
    matMul (E.inputToOutput.outputSpace.dIntegrate_dv f_value rhs) jacobian
  else jacobian

/-!  ## A concrete curved one-dimensional space

`demoSpace` is a one-dimensional commutative Lie group with group law
x ⊕ v = x + v + x·v (isomorphic to multiplication through x ↦ 1 + x), used
as a concrete instance of a curved space: its retraction differs from
componentwise vector addition, and its two partial differentials differ
from each other.  Since the law is affine in each argument separately, the
stated differentials are exact: see `demoSpace_dq_exact` and
`demoSpace_dv_exact`. -/

/-- A concrete curved one-dimensional Lie-group space. -/
def demoSpace : LiegroupSpaceModel where
  nq := 1
  nv := 1
  integrate := fun q v => [q.headD 0 + v.headD 0 + q.headD 0 * v.headD 0]
  dIntegrate_dq := fun _ v => [[1 + v.headD 0]]
  dIntegrate_dv := fun q _ => [[1 + q.headD 0]]

/-- The `dIntegrate_dq` field of `demoSpace` is the exact directional
derivative of its retraction in the configuration argument (the law is
affine in that argument, so the finite difference is exact). -/
theorem demoSpace_dq_exact (q v h : ℚ) :
    (demoSpace.integrate [q + h] [v]).headD 0 - (demoSpace.integrate [q] [v]).headD 0
      = ((demoSpace.dIntegrate_dq [q] [v]).headD []).headD 0 * h := by
  simp only [demoSpace, List.headD]
  ring

/-- The `dIntegrate_dv` field of `demoSpace` is the exact directional
derivative of its retraction in the tangent-direction argument. -/
theorem demoSpace_dv_exact (q v h : ℚ) :
    (demoSpace.integrate [q] [v + h]).headD 0 - (demoSpace.integrate [q] [v]).headD 0
      = ((demoSpace.dIntegrate_dv [q] [v]).headD []).headD 0 * h := by
  simp only [demoSpace, List.headD]
  ring

/-- A concrete explicit function into `demoSpace` (the identity map on the
single coordinate, with Jacobian [[1]]). -/
def demoExplicitF : ExplicitFunctionModel where
  outputSpace := demoSpace
  value := fun q => [q.headD 0]
  jacobianAt := fun _ => [[1]]

/-- A concrete `Explicit` constraint wrapping `demoExplicitF`. -/
def demoExplicit : Explicit :=
  Explicit.create demoExplicitF [(0, 1)] [(1, 1)] [(0, 1)] [(1, 1)] []

/-!  ## The differentiable-function contract

include/hpp/_constraints/differentiable-function.hh.  `operator()` and
`jacobian` assert the exact sizes of their buffers before delegating to the
implementation; an assertion failure is a fatal abort, modelled by `none`.
The implementation writes into the caller's buffer, which cannot change
size; this is modelled by `buffWrite`, which fills each position of the
buffer from the implementation's output. -/

/-- Writing an implementation's output into a caller-supplied buffer: every
position of the buffer receives the value the implementation computes for
that position (the buffer's size cannot change). -/
def buffWrite (buf : Vec) (g : ℕ → ℚ) : Vec := (List.range buf.length).map g

/-- `hpp::_constraints::DifferentiableFunction`: the immutable size
identity, plus the virtual implementations `impl_compute` (value written at
each output position) and `impl_jacobian` (value written at each Jacobian
entry). -/
structure DifferentiableFunction where
  inputSize : ℕ
  inputDerivativeSize : ℕ
  outputSize : ℕ
  outputDerivativeSize : ℕ
  impl_compute : Vec → ℕ → ℚ
  impl_jacobian : Vec → ℕ → ℕ → ℚ

/-- An Eigen matrix buffer, as seen by the size assertions: its `rows()`
and `cols()`. -/
structure MatrixBuffer where
  nr : ℕ
  nc : ℕ
deriving DecidableEq

/-- `DifferentiableFunction::operator()` (differentiable-function.hh lines
38-44): asserts `result.size() == outputSize()` and
`argument.size() == inputSize()`, then calls `impl_compute`; an assertion
failure aborts (`none`). -/
def DifferentiableFunction.callValue (f : DifferentiableFunction)
    (result argument : Vec) : Option Vec :=
  if result.length = f.outputSize ∧ argument.length = f.inputSize then
    some (buffWrite result (f.impl_compute argument))
  else none

/-- `DifferentiableFunction::jacobian` (differentiable-function.hh lines
49-55): asserts `argument.size() == inputSize()`,
`jacobian.rows() == outputDerivativeSize()` and
`jacobian.cols() == inputDerivativeSize()`, then calls `impl_jacobian`; an
assertion failure aborts (`none`). -/
def DifferentiableFunction.callJacobian (f : DifferentiableFunction)
    (J : MatrixBuffer) (argument : Vec) : Option MatQ :=
  if argument.length = f.inputSize ∧ J.nr = f.outputDerivativeSize
      ∧ J.nc = f.inputDerivativeSize then
    some ((List.range J.nr).map (fun i =>
      (List.range J.nc).map (fun j => f.impl_jacobian argument i j)))
  else none

/-- The four-argument protected constructor (differentiable-function.hh
lines 112-120): the output-derivative size is set to the output size. -/
def mkDifferentiableFunction4 (sizeInput sizeInputDerivative sizeOutput : ℕ)
    (fc : Vec → ℕ → ℚ) (fj : Vec → ℕ → ℕ → ℚ) : DifferentiableFunction :=
  { inputSize := sizeInput
    inputDerivativeSize := sizeInputDerivative
    outputSize := sizeOutput
    outputDerivativeSize := sizeOutput
    impl_compute := fc
    impl_jacobian := fj }

/-- The five-argument protected constructor (differentiable-function.hh
lines 129-138): the output-derivative size is given separately. -/
def mkDifferentiableFunction5
    (sizeInput sizeInputDerivative sizeOutput sizeOutputDerivative : ℕ)
    (fc : Vec → ℕ → ℚ) (fj : Vec → ℕ → ℕ → ℚ) : DifferentiableFunction :=
  { inputSize := sizeInput
    inputDerivativeSize := sizeInputDerivative
    outputSize := sizeOutput
    outputDerivativeSize := sizeOutputDerivative
    impl_compute := fc
    impl_jacobian := fj }

/-!  ## ConfigurationConstraint

src/configuration-constraint.cc.  The Lie-group difference `goal_ - a` and
`LiegroupSpace::Jdifference` come from hpp-pinocchio, outside the
repository; they are carried as opaque function fields of the model.  The
member `diff_` is a mutable scratch buffer that both evaluation methods
overwrite; it is made explicit as a state value threaded through the
calls. -/

/-- `mask.select (v, 0)`: keep the entries of `v` at positions where the
mask is true, replace the others by zero. -/
def selectVec (mask : List Bool) (v : Vec) : Vec :=
  List.zipWith (fun b x => if b then x else 0) mask v

/-- Squared Euclidean norm. -/
def sqNorm (v : Vec) : ℚ := (v.map (fun x => x * x)).sum

/-- The scratch state of a `ConfigurationConstraint`: its mutable member
`diff_`. -/
structure ScratchState where
  diff : Vec
deriving DecidableEq

/-- `hpp::constraints::ConfigurationConstraint`: the robot's
degree-of-freedom count, the goal configuration, the completed mask
`mask_`, and the two external Lie-group operations it calls
(`spaceDifference` models `goal_ - a`, the manifold difference;
`jdifferenceApply` models the application of
`LiegroupSpace::Jdifference<false>` to the row vector `diff_`). -/
structure ConfigurationConstraint where
  numberDof : ℕ
  goal : Vec
  mask_ : List Bool
  spaceDifference : Vec → Vec → Vec
  jdifferenceApply : Vec → Vec → Vec → Vec

/-- The `ConfigurationConstraint` constructor
(src/configuration-constraint.cc lines 39-54): copies the caller's mask
entries and sets the remaining `numberDof - mask.size()` trailing entries
to true. -/
def mkConfigurationConstraint (numberDof : ℕ) (goal : Vec) (mask : List Bool)
    (spaceDifference : Vec → Vec → Vec)
    (jdifferenceApply : Vec → Vec → Vec → Vec) : ConfigurationConstraint :=
  { numberDof := numberDof
    goal := goal
    mask_ := mask ++ List.replicate (numberDof - mask.length) true
    spaceDifference := spaceDifference
    jdifferenceApply := jdifferenceApply }

/-- `ConfigurationConstraint::impl_compute`
(src/configuration-constraint.cc lines 56-65): overwrites the scratch
member `diff_` with the manifold difference `goal_ - a`, then returns the
single scalar `0.5 * mask_.select (diff_, 0).squaredNorm ()`.  The prior
scratch state is discarded. -/
def ConfigurationConstraint.impl_compute (c : ConfigurationConstraint)
    (_s : ScratchState) (argument : Vec) : ScratchState × Vec :=
  let d := c.spaceDifference c.goal argument
  (⟨d⟩, [(1 / 2 : ℚ) * sqNorm (selectVec c.mask_ d)])

/-- `ConfigurationConstraint::impl_jacobian`
(src/configuration-constraint.cc lines 67-81): overwrites `diff_` with the
manifold difference, applies `Jdifference<false>` to it in place, and
returns the masked result as the Jacobian row. -/
def ConfigurationConstraint.impl_jacobian (c : ConfigurationConstraint)
    (_s : ScratchState) (argument : Vec) : ScratchState × Vec :=
  let d := c.spaceDifference c.goal argument
  let d2 := c.jdifferenceApply argument c.goal d
  (⟨d2⟩, selectVec c.mask_ d2)

/-!  ## ConvexShapeContact

src/_constraints/convex-shape-contact.cc.  The selected floor and object
shapes, the `isInside_` flag and the relative-transformation value and
Jacobian are computed by external geometry/kinematics collaborators
(`fcl`, the robot model); they enter the model as parameters.  A thrown
`std::logic_error` is modelled by `Except.error`. -/

/-- `ConvexShapeContact::ContactType`. -/
inductive ContactType
  | POINT_ON_PLANE
  | LINE_ON_PLANE
  | PLANE_ON_PLANE
deriving DecidableEq

/-- `ConvexShapeContact::contactType` (convex-shape-contact.cc lines
211-238): floor shape of dimension 1 or 2 throws a "not implemented"
`std::logic_error`; otherwise the object dimension selects the contact
type.  (The entry assertion requires both dimensions to be positive.) -/
def ConvexShapeContact.contactType (floorDim objectDim : ℕ) :
    Except String ContactType :=
  match floorDim with
  | 1 => .error "Contact on points is currently unimplemented"
  | 2 => .error "Contact on lines is currently unimplemented"
  | _ =>
    match objectDim with
    | 1 => .ok .POINT_ON_PLANE
    | 2 => .ok .LINE_ON_PLANE
    | _ => .ok .PLANE_ON_PLANE

/-- `ConvexShapeContact::impl_compute` (convex-shape-contact.cc lines
111-141): `selectConvexShapes` computes the contact type of the selected
pair (propagating its exception), then the 5-row result is assembled from
the relative-transformation value `rt` (the member `result_`): rows 0-2
from `isInside_` and the normal margin, rows 3-4 by the contact-type
switch, in which the `LINE_ON_PLANE` case falls through to
`PLANE_ON_PLANE`. -/
def ConvexShapeContact.impl_compute (floorDim objectDim : ℕ) (isInside : Bool)
    (rt : Vec) (normalMargin : ℚ) : Except String Vec :=
  match ConvexShapeContact.contactType floorDim objectDim with
  | .error e => .error e
  | .ok ct =>
    let head : Vec :=
      if isInside then [rt.getD 0 0 + normalMargin, 0, 0]
      else [rt.getD 0 0 + normalMargin, rt.getD 1 0, rt.getD 2 0]
    let tail : Vec :=
      match ct with
      | .POINT_ON_PLANE => [0, 0]
      | .LINE_ON_PLANE => [rt.getD 4 0, rt.getD 5 0]
      | .PLANE_ON_PLANE => [rt.getD 4 0, rt.getD 5 0]
    .ok (head ++ tail)

/-- `ConvexShapeContact::impl_jacobian` (convex-shape-contact.cc lines
152-176): `computeInternalJacobian` computes the contact type (propagating
its exception) and the internal 6-row Jacobian `jac`; rows 0-2 of the
output come from `isInside_`, rows 3-4 from the contact-type switch, in
which the `LINE_ON_PLANE` case throws a "not implemented"
`std::logic_error`.  `ndof` is the robot's degree-of-freedom count (the
width of a zeroed row). -/
def ConvexShapeContact.impl_jacobian (floorDim objectDim : ℕ) (isInside : Bool)
    (jac : ℕ → Vec) (ndof : ℕ) : Except String (List Vec) :=
  match ConvexShapeContact.contactType floorDim objectDim with
  | .error e => .error e
  | .ok ct =>
    let zeroRow : Vec := List.replicate ndof 0
    let top : List Vec :=
      if isInside then [jac 0, zeroRow, zeroRow] else [jac 0, jac 1, jac 2]
    match ct with
    | .POINT_ON_PLANE => .ok (top ++ [zeroRow, zeroRow])
    | .LINE_ON_PLANE => .error "Contact LINE_ON_PLANE: Unimplement feature"
    | .PLANE_ON_PLANE => .ok (top ++ [jac 4, jac 5])

/-!  ## complement (src/explicit.cc lines 35-60)

`complement` builds a boolean array `unionOfIntervals` of `size + 1`
entries, marks the input segments and the sentinel position `size`, and
scans it with a two-state automaton, appending each maximal unmarked run to
`result`.  The C++ scan loop bound is `i <= unionOfIntervals.size()`, so
the loop also visits `i = size + 1`; each iteration reads
`unionOfIntervals[i]` exactly once (by short-circuit evaluation the second
condition is only evaluated when the first did not read), and the visit at
`i = size + 1` reads one element past the end of the vector.  The model
threads the indeterminate value such an out-of-bounds read yields as the
parameter `oob`, and records in `reads` the index read at each
iteration. -/

/-- In-bounds array write; an out-of-bounds write leaves the array
unchanged (never exercised by the theorems, which keep writes in
bounds). -/
def arrSetB (a : Array Bool) (i : ℕ) (v : Bool) : Array Bool :=
  if h : i < a.size then a.set ⟨i, h⟩ v else a

/-- The `unionOfIntervals` vector of `complement`: `size + 1` entries,
positions covered by the input segments marked true, and the sentinel
position `size` marked true. -/
def buildUnion (size : ℕ) (intervals : Segments) : Array Bool :=
  let u := Array.mkArray (size + 1) false
  let u := intervals.foldl (fun u seg =>
    (List.range seg.2).foldl (fun u k => arrSetB u (seg.1 + k) true) u) u
  arrSetB u size true

/-- The state of the scan loop of `complement`: the automaton state, the
pending interval start, the appended result, and the list of indices of
`unionOfIntervals` read so far. -/
structure ScanState where
  state : ℕ
  intervalFirst : ℕ
  result : Segments
  reads : List ℕ
deriving DecidableEq

/-- One iteration of the scan loop of `complement`: reads
`unionOfIntervals[i]` (yielding `oob` when `i` is past the end), starts a
new interval when in state 0 on an unmarked entry, finishes the current
interval when in state 1 on a marked entry. -/
def scanStep (u : Array Bool) (oob : Bool) (s : ScanState) (i : ℕ) : ScanState :=
  let bit := u.getD i oob
  let s2 := { s with reads := s.reads ++ [i] }
  if s2.state = 0 ∧ bit = false then
    { s2 with state := 1, intervalFirst := i }
  else if s2.state = 1 ∧ bit = true then
    { s2 with state := 0,
              result := s2.result ++ [(s2.intervalFirst, i - s2.intervalFirst)] }
  else s2

/-- The scan loop of `complement`: `for (i = 0; i <= unionOfIntervals.size(); ++i)`,
i.e. the indices `0, …, unionOfIntervals.size()` inclusive. -/
def complementScan (size : ℕ) (intervals : Segments) (oob : Bool) : ScanState :=
  let u := buildUnion size intervals
  (List.range (u.size + 1)).foldl (scanStep u oob) ⟨0, 0, [], []⟩

/-- `complement` of src/explicit.cc: appends the scanned complement
segments to `result`. -/
def complement (size : ℕ) (intervals result : Segments) (oob : Bool) : Segments :=
  result ++ (complementScan size intervals oob).result

/-!  ## Input variables of explicit relative-pose constraints

src/explicit/input-configurations.hh.  The kinematic structure (joints,
parent links, ranks) comes from the hpp-pinocchio `Device`; the model keeps
the fields those functions read.  A joint pointer is an optional joint
index; index 0 is the universe joint at which the chain walks stop. -/

/-- The fields of a `hpp::pinocchio::Joint` read by the input-variable
computations. -/
structure Joint where
  parentIndex : Option ℕ
  rankInConfiguration : ℕ
  configSize : ℕ
  rankInVelocity : ℕ
  numberDof : ℕ
deriving DecidableEq

/-- The fields of a `hpp::pinocchio::Device` read by the input-variable
computations: the joint list (a joint's index is its position; position 0
is the universe joint) and the total configuration and velocity sizes. -/
structure Device where
  joints : List Joint
  configSize : ℕ
  numberDof : ℕ
deriving DecidableEq

/-- Toggle the `size` mask entries starting at `rank`:
`conf[rank+i] = !conf[rank+i]` for `0 ≤ i < size`. -/
def toggleRange (conf : Array Bool) (rank size : ℕ) : Array Bool :=
  (List.range size).foldl
    (fun c k => arrSetB c (rank + k) (!(c.getD (rank + k) false))) conf

/-- The chain walk shared by `relPoseConfVariables` and
`relPoseVelVariables`: `while (joint && joint->index() != 0)`, toggle the
joint's range (`rk`/`sz` select the configuration or velocity rank and
size), move to the parent.  The fuel argument bounds the walk; with fuel
`dev.joints.length` it is enough for any device whose parent indices
decrease (the C++ loop likewise only terminates on such devices). -/
def chainToggle (dev : Device) (rk sz : Joint → ℕ) :
    ℕ → Option ℕ → Array Bool → Array Bool
  | 0, _, conf => conf
  | _ + 1, none, conf => conf
  | fuel + 1, some j, conf =>
    if j = 0 then conf
    else
      match dev.joints[j]? with
      | none => conf
      | some jt => chainToggle dev rk sz fuel jt.parentIndex
          (toggleRange conf (rk jt) (sz jt))

/-- The list of joint indices visited by `chainToggle` (the joints whose
ranges the loop toggles, in visit order). -/
def chainList (dev : Device) : ℕ → Option ℕ → List ℕ
  | 0, _ => []
  | _ + 1, none => []
  | fuel + 1, some j =>
    if j = 0 then []
    else
      match dev.joints[j]? with
      | none => []
      | some jt => j :: chainList dev fuel jt.parentIndex

/-- The shared body of `relPoseConfVariables` and `relPoseVelVariables`
(input-configurations.hh lines 45-98): start from an all-false mask of
`total` entries, toggle along the chain of `joint1`, then toggle along the
chain of `joint2->parentJoint()`. -/
def relPoseVariables (dev : Device) (rk sz : Joint → ℕ) (total : ℕ)
    (joint1 : Option ℕ) (joint2 : ℕ) : Array Bool :=
  let conf := Array.mkArray total false
  let conf := chainToggle dev rk sz dev.joints.length joint1 conf
  match dev.joints[joint2]? with
  | none => conf
  | some jt2 => chainToggle dev rk sz dev.joints.length jt2.parentIndex conf

/-- `relPoseConfVariables` (input-configurations.hh lines 45-68): the
configuration-variable mask. -/
def relPoseConfVariables (dev : Device) (joint1 : Option ℕ) (joint2 : ℕ) :
    Array Bool :=
  relPoseVariables dev (fun jt => jt.rankInConfiguration)
    (fun jt => jt.configSize) dev.configSize joint1 joint2

/-- `relPoseVelVariables` (input-configurations.hh lines 75-98): the
velocity-variable mask. -/
def relPoseVelVariables (dev : Device) (joint1 : Option ℕ) (joint2 : ℕ) :
    Array Bool :=
  relPoseVariables dev (fun jt => jt.rankInVelocity)
    (fun jt => jt.numberDof) dev.numberDof joint1 joint2

/-- `vectorOfBoolToIntervals` (input-configurations.hh lines 29-37): one
unit segment per true mask entry, then `BlockIndex::shrink`. -/
def vectorOfBoolToIntervals (v : Array Bool) : Segments :=
  BlockIndex.shrink ((List.range v.size).filterMap
    (fun i => if v.getD i false then some (i, 1) else none))

/-- `relativePose::inputConfVariables` (input-configurations.hh lines
107-113). -/
def inputConfVariables (dev : Device) (joint1 : Option ℕ) (joint2 : ℕ) :
    Segments :=
  vectorOfBoolToIntervals (relPoseConfVariables dev joint1 joint2)

/-- `relativePose::inputVelocityVariables` (input-configurations.hh lines
120-126). -/
def inputVelocityVariables (dev : Device) (joint1 : Option ℕ) (joint2 : ℕ) :
    Segments :=
  vectorOfBoolToIntervals (relPoseVelVariables dev joint1 joint2)

/-- `relativePose::jointConfInterval` (input-configurations.hh lines
129-133): the single segment of the joint's configuration variables. -/
def jointConfInterval (dev : Device) (j : ℕ) : Segments :=
  match dev.joints[j]? with
  | none => []
  | some jt => [(jt.rankInConfiguration, jt.configSize)]

/-- `relativePose::jointVelInterval` (input-configurations.hh lines
135-138): the single segment of the joint's velocity variables. -/
def jointVelInterval (dev : Device) (j : ℕ) : Segments :=
  match dev.joints[j]? with
  | none => []
  | some jt => [(jt.rankInVelocity, jt.numberDof)]

/-- Parent indices decrease strictly: the joint list is topologically
ordered, as in pinocchio. -/
def Device.parentsOk (dev : Device) : Prop :=
  ∀ i, ∀ h : i < dev.joints.length, ∀ p,
    (dev.joints.get ⟨i, h⟩).parentIndex = some p → p < i

/-- The ranges selected by `rk`/`sz` fit in `total` and are pairwise
disjoint across joints. -/
def Device.rangesOk (dev : Device) (rk sz : Joint → ℕ) (total : ℕ) : Prop :=
  (∀ i, ∀ h : i < dev.joints.length,
      rk (dev.joints.get ⟨i, h⟩) + sz (dev.joints.get ⟨i, h⟩) ≤ total)
  ∧ (∀ i, ∀ hi : i < dev.joints.length, ∀ j, ∀ hj : j < dev.joints.length,
      i ≠ j →
      rk (dev.joints.get ⟨i, hi⟩) + sz (dev.joints.get ⟨i, hi⟩)
          ≤ rk (dev.joints.get ⟨j, hj⟩)
        ∨ rk (dev.joints.get ⟨j, hj⟩) + sz (dev.joints.get ⟨j, hj⟩)
          ≤ rk (dev.joints.get ⟨i, hi⟩))

/-- Well-formed device: decreasing parent indices, and both the
configuration and the velocity ranges laid out disjointly within the
device's totals. -/
def Device.wf (dev : Device) : Prop :=
  dev.parentsOk
  ∧ dev.rangesOk (fun jt => jt.rankInConfiguration) (fun jt => jt.configSize)
      dev.configSize
  ∧ dev.rangesOk (fun jt => jt.rankInVelocity) (fun jt => jt.numberDof)
      dev.numberDof

instance (dev : Device) : Decidable dev.parentsOk := by
  unfold Device.parentsOk; infer_instance

instance (dev : Device) (rk sz : Joint → ℕ) (total : ℕ) :
    Decidable (dev.rangesOk rk sz total) := by
  unfold Device.rangesOk; infer_instance

instance (dev : Device) : Decidable dev.wf := by
  unfold Device.wf; infer_instance

/-!  ## Comparison / residual layer

Modelled from the spec: the comparison/residual layer (the `Implicit`
class and the solver's residual assembly) is not among the source files,
only its comparison-type enumeration and its callers are.  Following the
specification, each active output row carries a comparison type and a
target, its residual is given by `residualRow`, and a configuration
satisfies the constraint when every active row's residual magnitude is at
most the caller's error threshold; inactive rows take part in neither the
residual nor the Jacobian assembly. -/

/-- One output row of a constraint: its active-mask entry, comparison
type, function value `f(x)_i` and target `r_i`. -/
structure ResidualRow where
  active : Bool
  comp : ComparisonType
  fx : ℚ
  rhs : ℚ
deriving DecidableEq

/-- Modelled from the spec: the residual of one row, by comparison
type. -/
def residualRow (T : ComparisonType) (fx r : ℚ) : ℚ :=
  match T with
  | .Equality => fx - r
  | .EqualToZero => fx
  | .GreaterOrEqual => max 0 (r - fx)
  | .LessOrEqual => max 0 (fx - r)

/-- Modelled from the spec: the assembled residual vector, one entry per
active row. -/
def assembleResidual (rows : List ResidualRow) : Vec :=
  (rows.filter (fun r => r.active)).map (fun r => residualRow r.comp r.fx r.rhs)

/-- Modelled from the spec: the assembled Jacobian, one row (paired with
its output row) per active row. -/
def assembleJacobian (rows : List (ResidualRow × Vec)) : List Vec :=
  (rows.filter (fun p => p.1.active)).map (fun p => p.2)

/-- Modelled from the spec: a configuration satisfies the constraint when
every assembled residual entry has magnitude at most the error
threshold. -/
def constraintSatisfied (rows : List ResidualRow) (eps : ℚ) : Bool :=
  (assembleResidual rows).all (fun e => decide (|e| ≤ eps))

/-!  ## Theorems -/

/-- C1: for every input configuration `qin` and right-hand side `rhs`,
`Explicit::outputValue` sets the result to the value of the wrapped
explicit function at `qin` combined with `rhs` through the output
manifold's own addition/retraction operator (Lie-group integration); on
the concrete curved space `demoSpace` the result differs from
component-wise vector addition. -/
theorem explicit_outputValue_liegroup_integration :
    (∀ (E : Explicit) (qin rhs : Vec),
      E.outputValue qin rhs
        = ⟨E.inputToOutput.outputSpace,
           E.inputToOutput.outputSpace.integrate (E.inputToOutput.value qin) rhs⟩)
    ∧ (demoExplicit.outputValue [1] [1]).q
        ≠ vecAdd (demoExplicit.inputToOutput.value [1]) [1] := by
  constructor
  · intro E qin rhs
    rfl
  · norm_num [demoExplicit, demoExplicitF, demoSpace, Explicit.create,
      Explicit.outputValue, LiegroupElementM.add, vecAdd]

/-- C2 counterexample: the claim reads the correction term of
`jacobianOutputValue` as the differential of the retraction with respect
to its tangent-direction argument, but src/explicit.cc line 117 applies
`dIntegrate_dq`, the differential with respect to the configuration
(base-point) argument; on the concrete curved space `demoSpace`, at
`qin = [1]`, `f_value = [2]`, `rhs = [3]`, the two differ. -/
theorem jacobianOutputValue_tangent_differential_refuted :
    Explicit.jacobianOutputValue demoExplicit [1] [2] [3]
      ≠ Explicit.jacobianOutputValueSpec demoExplicit [1] [2] [3] := by
  norm_num [demoExplicit, demoExplicitF, demoSpace, Explicit.create,
    Explicit.jacobianOutputValue, Explicit.jacobianOutputValueSpec,
    dIntegrateDqTimesInput, matMul, matCol, dotQ, vecIsZero]

/-- C2 amended: `jacobianOutputValue` first stores the Jacobian of the
explicit function at `qin`, and applies the correction
`dIntegrate_dq<DerivativeTimesInput>` — the differential of the retraction
with respect to its configuration (base-point) argument, evaluated at
`f_value` and `rhs` — exactly when `rhs` is non-zero; when `rhs` is zero
the result is exactly the explicit function's Jacobian. -/
theorem jacobianOutputValue_base_point_differential
    (E : Explicit) (qin f_value rhs : Vec) :
    (E.jacobianOutputValue qin f_value rhs
      = if vecIsZero rhs then E.inputToOutput.jacobianAt qin
        else matMul (E.inputToOutput.outputSpace.dIntegrate_dq f_value rhs)
               (E.inputToOutput.jacobianAt qin))
    ∧ (vecIsZero rhs = true →
        E.jacobianOutputValue qin f_value rhs = E.inputToOutput.jacobianAt qin) := by
  constructor
  · by_cases h : vecIsZero rhs <;>
      simp [Explicit.jacobianOutputValue, dIntegrateDqTimesInput, h]
  · intro h
    simp [Explicit.jacobianOutputValue, h]

/-- Witness for the C2 amended theorem at a concrete zero right-hand
side. -/
theorem jacobianOutputValue_base_point_differential_witness :
    vecIsZero ([0] : Vec) = true
    ∧ Explicit.jacobianOutputValue demoExplicit [1] [2] [0]
        = demoExplicit.inputToOutput.jacobianAt [1] :=
  ⟨by decide,
   (jacobianOutputValue_base_point_differential demoExplicit [1] [2] [0]).2
     (by decide)⟩

/-- C3: the residual of an active row is `f(x)_i - r_i` under Equality,
`f(x)_i` under EqualToZero, `max (0, r_i - f(x)_i)` under GreaterOrEqual
and `max (0, f(x)_i - r_i)` under LessOrEqual; a configuration satisfies
the constraint iff every active row's residual magnitude is at most the
error threshold; and rows that are inactive take part in neither the
residual nor the Jacobian assembly (both assemblies depend only on the
active rows). -/
theorem comparison_residual_semantics (rows rowsB : List ResidualRow)
    (jrows jrowsB : List (ResidualRow × Vec)) (eps fx r : ℚ) :
    (residualRow ComparisonType.Equality fx r = fx - r
      ∧ residualRow ComparisonType.EqualToZero fx r = fx
      ∧ residualRow ComparisonType.GreaterOrEqual fx r = max 0 (r - fx)
      ∧ residualRow ComparisonType.LessOrEqual fx r = max 0 (fx - r))
    ∧ (constraintSatisfied rows eps = true
        ↔ ∀ row ∈ rows, row.active = true →
            |residualRow row.comp row.fx row.rhs| ≤ eps)
    ∧ (rows.filter (fun row => row.active) = rowsB.filter (fun row => row.active) →
        assembleResidual rows = assembleResidual rowsB
        ∧ constraintSatisfied rows eps = constraintSatisfied rowsB eps)
    ∧ (jrows.filter (fun p => p.1.active) = jrowsB.filter (fun p => p.1.active) →
        assembleJacobian jrows = assembleJacobian jrowsB) := by
  refine ⟨⟨rfl, rfl, rfl, rfl⟩, ?_, ?_, ?_⟩
  · unfold constraintSatisfied assembleResidual
    rw [List.all_eq_true]
    constructor
    · intro h row hrow hact
      have hm : residualRow row.comp row.fx row.rhs
          ∈ (rows.filter (fun row => row.active)).map
              (fun row => residualRow row.comp row.fx row.rhs) :=
        List.mem_map_of_mem _ (List.mem_filter.2 ⟨hrow, hact⟩)
      simpa using h _ hm
    · intro h e he
      rcases List.mem_map.1 he with ⟨row, hrow, rfl⟩
      rcases List.mem_filter.1 hrow with ⟨h1, h2⟩
      simpa using h row h1 h2
  · intro hf
    have h1 : assembleResidual rows = assembleResidual rowsB := by
      unfold assembleResidual
      rw [hf]
    exact ⟨h1, by unfold constraintSatisfied; rw [h1]⟩
  · intro hf
    unfold assembleJacobian
    rw [hf]

/-- Witness for C3 at a concrete list of rows: a satisfied GreaterOrEqual
row together with an inactive, violently violated Equality row. -/
theorem comparison_residual_semantics_witness :
    constraintSatisfied
      [⟨true, ComparisonType.GreaterOrEqual, 1, 0⟩,
       ⟨false, ComparisonType.Equality, 100, 0⟩] 0 = true :=
  (comparison_residual_semantics
      [⟨true, ComparisonType.GreaterOrEqual, 1, 0⟩,
       ⟨false, ComparisonType.Equality, 100, 0⟩] [] [] [] 0 0 0).2.1.mpr
    (by
      intro row hrow hact
      simp only [List.mem_cons, List.not_mem_nil, or_false] at hrow
      rcases hrow with rfl | rfl
      · norm_num [residualRow]
      · simp at hact)

/-- C4: value evaluation accepts its buffers exactly when the argument has
`inputSize` entries and the result buffer `outputSize` entries, Jacobian
evaluation exactly when the argument has `inputSize` entries and the
matrix is `outputDerivativeSize × inputDerivativeSize`; any size mismatch
aborts through the assertion (no result at all, never a truncated or
padded one), and an accepted value evaluation fills exactly `outputSize`
entries. -/
theorem differentiableFunction_size_contract (f : DifferentiableFunction)
    (result argument : Vec) (J : MatrixBuffer) :
    ((f.callValue result argument).isSome
        ↔ (result.length = f.outputSize ∧ argument.length = f.inputSize))
    ∧ ((f.callJacobian J argument).isSome
        ↔ (argument.length = f.inputSize ∧ J.nr = f.outputDerivativeSize
            ∧ J.nc = f.inputDerivativeSize))
    ∧ (∀ y, f.callValue result argument = some y → y.length = f.outputSize) := by
  refine ⟨?_, ?_, ?_⟩
  · by_cases h : result.length = f.outputSize ∧ argument.length = f.inputSize <;>
      simp [DifferentiableFunction.callValue, h]
  · by_cases h : argument.length = f.inputSize ∧ J.nr = f.outputDerivativeSize
        ∧ J.nc = f.inputDerivativeSize <;>
      simp [DifferentiableFunction.callJacobian, h]
  · intro y hy
    unfold DifferentiableFunction.callValue at hy
    by_cases h : result.length = f.outputSize ∧ argument.length = f.inputSize
    · rw [if_pos h] at hy
      cases hy
      simpa [buffWrite] using h.1
    · rw [if_neg h] at hy
      cases hy

/-- Witness for C4 on a concrete function of input size 2 and output size
1: the accepted evaluation fills exactly one entry. -/
theorem differentiableFunction_size_contract_witness :
    ([0] : Vec).length
      = (mkDifferentiableFunction5 2 2 1 1 (fun _ _ => 0)
          (fun _ _ _ => 0)).outputSize :=
  (differentiableFunction_size_contract
      (mkDifferentiableFunction5 2 2 1 1 (fun _ _ => 0) (fun _ _ _ => 0))
      [5] [1, 2] ⟨1, 2⟩).2.2 [0] rfl

/-- C9: when `Explicit::create` receives an empty comparison-type vector
and the output-velocity segments have positive cardinality `n`, the
constructed constraint carries exactly `n` comparison types, all
`EqualToZero`; a non-empty comparison vector is stored unchanged. -/
theorem explicit_create_default_comparison_types
    (function : ExplicitFunctionModel) (ic oc iv ov : Segments)
    (comp : List ComparisonType) (n : ℕ) :
    (comp = [] → BlockIndex.cardinal ov = n → 0 < n →
      (Explicit.create function ic oc iv ov comp).comp
          = List.replicate n ComparisonType.EqualToZero
        ∧ (Explicit.create function ic oc iv ov comp).comp.length = n
        ∧ ∀ c ∈ (Explicit.create function ic oc iv ov comp).comp,
            c = ComparisonType.EqualToZero)
    ∧ (comp ≠ [] → (Explicit.create function ic oc iv ov comp).comp = comp) := by
  constructor
  · rintro rfl rfl hn
    simp only [Explicit.create, defaultCompTypes, List.length_nil, if_pos rfl,
      if_pos hn]
    refine ⟨rfl, List.length_replicate _ _, ?_⟩
    intro c hc
    exact List.eq_of_mem_replicate hc
  · intro h
    simp only [Explicit.create, defaultCompTypes]
    rw [if_neg (by simpa [List.length_eq_zero] using h)]

/-- Witness for C9 on concrete output-velocity segments of cardinality
two. -/
theorem explicit_create_default_comparison_types_witness :
    (Explicit.create demoExplicitF [] [] [] [(1, 2)] []).comp
      = List.replicate 2 ComparisonType.EqualToZero :=
  ((explicit_create_default_comparison_types demoExplicitF [] [] [] [(1, 2)]
      [] 2).1 rfl (by decide) (by decide)).1

/-- C5 counterexample: for an object line on a floor plane (floor shape of
dimension 3, object shape of dimension 2, i.e. the LINE_ON_PLANE
combination), value evaluation does not raise the "not implemented" fault:
the `LINE_ON_PLANE` case of `impl_compute` falls through to the
`PLANE_ON_PLANE` case and returns a numeric result (here with the selected
pair not inside, zero margin and relative-transformation value
(0,1,2,3,4,5)). -/
theorem convexShapeContact_line_on_plane_value_is_numeric :
    ConvexShapeContact.impl_compute 3 2 false [0, 1, 2, 3, 4, 5] 0
      = Except.ok [0, 1, 2, 4, 5] := by
  norm_num [ConvexShapeContact.impl_compute, ConvexShapeContact.contactType]

/-- C5 amended: a floor shape of dimension 1 or 2 raises an explicit "not
implemented" logic fault in both value and Jacobian evaluation; for an
object line on a floor plane, Jacobian evaluation raises the fault but
value evaluation returns a numeric result (falling through to the
plane-on-plane case). -/
theorem convexShapeContact_not_implemented_faults
    (floorDim objectDim : ℕ) (isInside : Bool) (rt : Vec) (margin : ℚ)
    (jac : ℕ → Vec) (ndof : ℕ) :
    ((floorDim = 1 ∨ floorDim = 2) →
      (∃ e, ConvexShapeContact.impl_compute floorDim objectDim isInside rt
              margin = .error e)
      ∧ (∃ e, ConvexShapeContact.impl_jacobian floorDim objectDim isInside jac
              ndof = .error e))
    ∧ (3 ≤ floorDim → objectDim = 2 →
      ConvexShapeContact.impl_jacobian floorDim objectDim isInside jac ndof
        = .error "Contact LINE_ON_PLANE: Unimplement feature"
      ∧ ∃ v, ConvexShapeContact.impl_compute floorDim objectDim isInside rt
              margin = .ok v) := by
  constructor
  · rintro (rfl | rfl)
    · exact ⟨⟨_, rfl⟩, ⟨_, rfl⟩⟩
    · exact ⟨⟨_, rfl⟩, ⟨_, rfl⟩⟩
  · rintro hf rfl
    obtain ⟨k, rfl⟩ : ∃ k, floorDim = k + 3 := ⟨floorDim - 3, by omega⟩
    exact ⟨rfl, ⟨_, rfl⟩⟩

/-- Witness for the C5 amended theorem: a dimension-1 floor faults in
value evaluation, and the line-on-plane combination faults in Jacobian
evaluation. -/
theorem convexShapeContact_not_implemented_faults_witness :
    (∃ e, ConvexShapeContact.impl_compute 1 3 false [0, 0, 0, 0, 0, 0] 0
            = .error e)
    ∧ ConvexShapeContact.impl_jacobian 3 2 false (fun _ => []) 2
        = .error "Contact LINE_ON_PLANE: Unimplement feature" :=
  ⟨((convexShapeContact_not_implemented_faults 1 3 false [0, 0, 0, 0, 0, 0] 0
      (fun _ => []) 2).1 (Or.inl rfl)).1,
   ((convexShapeContact_not_implemented_faults 3 2 false [0, 0, 0, 0, 0, 0] 0
      (fun _ => []) 2).2 (by norm_num) rfl).1⟩

/-- Componentwise subtraction, the Lie-group difference of a pure vector
space (used to instantiate the abstract difference operator on concrete
examples). -/
def vecSub (u v : Vec) : Vec := List.zipWith (fun a b => a - b) u v

/-- A concrete `ConfigurationConstraint` on a one-dimensional vector
space: goal [1], empty caller mask (hence mask_ = [true]), vector-space
difference. -/
def ccDemo : ConfigurationConstraint :=
  mkConfigurationConstraint 1 [1] [] vecSub (fun _ _ d => d)

/-- C7 counterexample: evaluating `ConfigurationConstraint::impl_compute`
overwrites the instance's mutable scratch member `diff_`: starting from
scratch state diff_ = [5], evaluation at q = [0] (goal [1]) leaves
diff_ = [1] — an observable state change of the function object caused by
evaluation. -/
theorem configurationConstraint_evaluation_mutates_state :
    (ccDemo.impl_compute ⟨[5]⟩ [0]).1 ≠ (⟨[5]⟩ : ScratchState) := by
  norm_num [ccDemo, mkConfigurationConstraint,
    ConfigurationConstraint.impl_compute, vecSub]

/-- C7 amended: evaluation is deterministic in the input — the value and
Jacobian results do not depend on the prior scratch state, so repeated
sequential evaluations at the same input produce identical results — but
each evaluation overwrites the instance's mutable scratch member `diff_`
(with the manifold difference, respectively the `Jdifference`-transformed
difference), so evaluation does change the state of the function object,
and concurrent unsynchronized callers share that scratch buffer. -/
theorem configurationConstraint_deterministic_but_stateful
    (c : ConfigurationConstraint) (s t : ScratchState) (q : Vec) :
    ((c.impl_compute s q).2 = (c.impl_compute t q).2)
    ∧ ((c.impl_jacobian s q).2 = (c.impl_jacobian t q).2)
    ∧ ((c.impl_compute s q).1 = ⟨c.spaceDifference c.goal q⟩)
    ∧ ((c.impl_jacobian s q).1
        = ⟨c.jdifferenceApply q c.goal (c.spaceDifference c.goal q)⟩) :=
  ⟨rfl, rfl, rfl, rfl⟩

/-- Masked squared norm as an indexed sum: the masked-out components
contribute zero. -/
theorem sqNorm_selectVec (m : List Bool) (d : Vec) (h : m.length = d.length) :
    sqNorm (selectVec m d)
      = ((List.range d.length).map (fun i =>
          if m.getD i false then d.getD i 0 * d.getD i 0 else 0)).sum := by
  induction m generalizing d with
  | nil =>
    cases d with
    | nil => rfl
    | cons x xs => simp at h
  | cons b bs ih =>
    cases d with
    | nil => simp at h
    | cons x xs =>
      have hlen : bs.length = xs.length := by simpa using h
      have := ih xs hlen
      simp only [selectVec, List.zipWith_cons_cons, sqNorm, List.map_cons,
        List.sum_cons, List.length_cons, List.range_succ_eq_map,
        List.map_map] at this ⊢
      rw [show (fun i => if (b :: bs).getD i false
            then (x :: xs).getD i 0 * (x :: xs).getD i 0 else 0) ∘
            (fun i => i + 1)
          = (fun i => if bs.getD i false then xs.getD i 0 * xs.getD i 0
              else 0) from rfl]
      rw [← this]
      cases b <;> simp [selectVec, sqNorm]

/-- C10: when the caller's mask is shorter than the robot's
degree-of-freedom count, the constructor treats every unspecified trailing
degree of freedom as active, and the value at any configuration `q` is the
single scalar `0.5` times the squared norm of the masked manifold
difference `goal - q`, the masked-out components contributing zero. -/
theorem configurationConstraint_mask_completion_and_value
    (numberDof : ℕ) (goal : Vec) (mask : List Bool)
    (sd : Vec → Vec → Vec) (jd : Vec → Vec → Vec → Vec)
    (s : ScratchState) (q : Vec)
    (hm : mask.length ≤ numberDof)
    (hd : (sd goal q).length = numberDof) :
    (∀ i, mask.length ≤ i → i < numberDof →
      (mkConfigurationConstraint numberDof goal mask sd jd).mask_.getD i false
        = true)
    ∧ ((mkConfigurationConstraint numberDof goal mask sd jd).impl_compute s
          q).2
        = [(1 / 2 : ℚ) * ((List.range numberDof).map (fun i =>
            if (mkConfigurationConstraint numberDof goal mask sd
                  jd).mask_.getD i false
            then (sd goal q).getD i 0 * (sd goal q).getD i 0 else 0)).sum] := by
  have hmask : (mkConfigurationConstraint numberDof goal mask sd jd).mask_
      = mask ++ List.replicate (numberDof - mask.length) true := rfl
  have hmlen : (mkConfigurationConstraint numberDof goal mask sd
      jd).mask_.length = numberDof := by
    rw [hmask]
    simp [List.length_append, List.length_replicate]
    omega
  constructor
  · intro i hi hilt
    rw [hmask, List.getD_eq_getElem?_getD, List.getElem?_append_right (by simpa using hi)]
    have : i - mask.length < numberDof - mask.length := by omega
    simp [List.getElem?_replicate, this]
  · show ([(1 / 2 : ℚ) * sqNorm (selectVec _ (sd goal q))]) = _
    rw [sqNorm_selectVec _ _ (by rw [hmlen, hd]), hd]

/-- Witness for C10: a mask of length one completed over three degrees of
freedom marks the second degree of freedom active. -/
theorem configurationConstraint_mask_completion_and_value_witness :
    (mkConfigurationConstraint 3 [1, 2, 3] [false] vecSub
        (fun _ _ d => d)).mask_.getD 1 false = true :=
  (configurationConstraint_mask_completion_and_value 3 [1, 2, 3] [false]
      vecSub (fun _ _ d => d) ⟨[]⟩ [0, 0, 0] (by norm_num)
      (by norm_num [vecSub])).1 1 (by norm_num) (by norm_num)

/-- C8: at size 2 with no input segments, the scan loop of `complement`
visits the indices 0, 1, 2 and 3 = size + 1 and reads `unionOfIntervals`
at each of them, while the vector has 3 elements (valid indices 0, 1, 2):
the loop bound `i <= unionOfIntervals.size()` makes the final iteration
read one element past the end of the vector. -/
theorem complement_scan_reads_past_the_end :
    (complementScan 2 [] false).reads = [0, 1, 2, 3]
    ∧ (buildUnion 2 []).size = 3 := by
  exact ⟨rfl, rfl⟩

/-!  ### Lemmas on the mask arrays and chain walks -/

theorem getD_of_lt (a : Array Bool) (i : ℕ) (d : Bool) (h : i < a.size) :
    a.getD i d = a[i] := by
  unfold Array.getD
  simp [h]

theorem getD_of_ge (a : Array Bool) (i : ℕ) (d : Bool) (h : ¬i < a.size) :
    a.getD i d = d := by
  unfold Array.getD
  simp [h]

theorem arrSetB_size (a : Array Bool) (i : ℕ) (v : Bool) :
    (arrSetB a i v).size = a.size := by
  unfold arrSetB
  split
  · exact Array.size_set a _ v
  · rfl

theorem arrSetB_getD_eq (a : Array Bool) (i : ℕ) (v d : Bool)
    (h : i < a.size) : (arrSetB a i v).getD i d = v := by
  unfold arrSetB
  rw [dif_pos h, getD_of_lt _ _ _ (by simpa using h)]
  exact Array.get_set_eq a ⟨i, h⟩ v

theorem arrSetB_getD_ne (a : Array Bool) (i j : ℕ) (v d : Bool)
    (hne : i ≠ j) : (arrSetB a i v).getD j d = a.getD j d := by
  unfold arrSetB
  split
  · next h =>
    by_cases hj : j < a.size
    · rw [getD_of_lt _ _ _ (by simpa using hj), getD_of_lt _ _ _ hj]
      exact Array.get_set_ne a ⟨i, h⟩ v hj hne
    · rw [getD_of_ge _ _ _ (by simpa using hj), getD_of_ge _ _ _ hj]
  · rfl

theorem toggleRange_succ (conf : Array Bool) (rank k : ℕ) :
    toggleRange conf rank (k + 1)
      = arrSetB (toggleRange conf rank k) (rank + k)
          (!((toggleRange conf rank k).getD (rank + k) false)) := by
  unfold toggleRange
  rw [List.range_succ, List.foldl_append]
  rfl

theorem toggleRange_size (conf : Array Bool) (rank k : ℕ) :
    (toggleRange conf rank k).size = conf.size := by
  induction k with
  | zero => rfl
  | succ k ih => rw [toggleRange_succ, arrSetB_size, ih]

theorem toggleRange_getD (conf : Array Bool) (rank k v : ℕ)
    (hv : v < conf.size) :
    (toggleRange conf rank k).getD v false
      = if rank ≤ v ∧ v < rank + k then !(conf.getD v false)
        else conf.getD v false := by
  induction k with
  | zero =>
    rw [if_neg (by omega)]
    rfl
  | succ k ih =>
    rw [toggleRange_succ]
    by_cases hveq : rank + k = v
    · subst hveq
      rw [arrSetB_getD_eq _ _ _ _ (by rw [toggleRange_size]; omega), ih,
        if_neg (by omega), if_pos (by omega)]
    · rw [arrSetB_getD_ne _ _ _ _ _ hveq, ih]
      by_cases h1 : rank ≤ v ∧ v < rank + k
      · rw [if_pos h1, if_pos (by omega)]
      · rw [if_neg h1, if_neg (by omega)]

/-- Whether mask index `v` lies in the `rk`/`sz` range of joint `k`. -/
def inRangeB (dev : Device) (rk sz : Joint → ℕ) (k v : ℕ) : Bool :=
  match dev.joints[k]? with
  | none => false
  | some jt => decide (rk jt ≤ v ∧ v < rk jt + sz jt)

theorem parity_succ (n : ℕ) :
    decide ((n + 1) % 2 = 1) = !decide (n % 2 = 1) := by
  by_cases h : n % 2 = 1 <;> simp [h] <;> omega

theorem chainToggle_size (dev : Device) (rk sz : Joint → ℕ) :
    ∀ (fuel : ℕ) (o : Option ℕ) (conf : Array Bool),
      (chainToggle dev rk sz fuel o conf).size = conf.size := by
  intro fuel
  induction fuel with
  | zero => intro o conf; rfl
  | succ fuel ih =>
    intro o conf
    match o with
    | none => rfl
    | some j =>
      by_cases hj : j = 0
      · simp [chainToggle, hj]
      · cases hlook : dev.joints[j]? with
        | none => simp [chainToggle, hj, hlook]
        | some jt =>
          simp only [chainToggle, hj, if_false, hlook]
          rw [ih, toggleRange_size]

theorem chainToggle_getD (dev : Device) (rk sz : Joint → ℕ) :
    ∀ (fuel : ℕ) (o : Option ℕ) (conf : Array Bool) (v : ℕ),
      v < conf.size →
      (∀ k ∈ chainList dev fuel o, ∀ jt, dev.joints[k]? = some jt →
        rk jt + sz jt ≤ conf.size) →
      (chainToggle dev rk sz fuel o conf).getD v false
        = Bool.xor (conf.getD v false)
            (decide ((chainList dev fuel o).countP
              (fun k => inRangeB dev rk sz k v) % 2 = 1)) := by
  intro fuel
  induction fuel with
  | zero => intro o conf v hv hb; simp [chainToggle, chainList]
  | succ fuel ih =>
    intro o conf v hv hb
    match o with
    | none => simp [chainToggle, chainList]
    | some j =>
      by_cases hj : j = 0
      · simp [chainToggle, chainList, hj]
      · cases hlook : dev.joints[j]? with
        | none => simp [chainToggle, chainList, hj, hlook]
        | some jt =>
          have hstep : chainToggle dev rk sz (fuel + 1) (some j) conf
              = chainToggle dev rk sz fuel jt.parentIndex
                  (toggleRange conf (rk jt) (sz jt)) := by
            simp [chainToggle, hj, hlook]
          have hlst : chainList dev (fuel + 1) (some j)
              = j :: chainList dev fuel jt.parentIndex := by
            simp [chainList, hj, hlook]
          have hmem : j ∈ chainList dev (fuel + 1) (some j) := by
            rw [hlst]; exact List.mem_cons_self j _
          have hran : rk jt + sz jt ≤ conf.size := hb j hmem jt hlook
          have hb2 : ∀ k ∈ chainList dev fuel jt.parentIndex, ∀ jt2,
              dev.joints[k]? = some jt2 →
              rk jt2 + sz jt2 ≤ (toggleRange conf (rk jt) (sz jt)).size := by
            intro k hk jt2 hk2
            rw [toggleRange_size]
            exact hb k (by rw [hlst]; exact List.mem_cons_of_mem _ hk) jt2 hk2
          rw [hstep, ih jt.parentIndex _ v (by rw [toggleRange_size]; exact hv)
            hb2, hlst, List.countP_cons, toggleRange_getD _ _ _ _ hv]
          have hpj : inRangeB dev rk sz j v
              = decide (rk jt ≤ v ∧ v < rk jt + sz jt) := by
            simp [inRangeB, hlook]
          by_cases hin : rk jt ≤ v ∧ v < rk jt + sz jt
          · have hpj2 : inRangeB dev rk sz j v = true := by
              rw [hpj]; exact decide_eq_true hin
            rw [if_pos hin, if_pos hpj2, parity_succ]
            cases conf.getD v false <;>
              cases decide (List.countP (fun k => inRangeB dev rk sz k v)
                (chainList dev fuel jt.parentIndex) % 2 = 1) <;> rfl
          · have hpj2 : ¬inRangeB dev rk sz j v = true := by
              rw [hpj]; simpa using hin
            rw [if_neg hin, if_neg hpj2, Nat.add_zero]

theorem lookup_lt (dev : Device) {j : ℕ} {jt : Joint}
    (h : dev.joints[j]? = some jt) : j < dev.joints.length := by
  rcases List.getElem?_eq_some.1 h with ⟨hlt, _⟩
  exact hlt

theorem lookup_get (dev : Device) {j : ℕ} {jt : Joint}
    (h : dev.joints[j]? = some jt) (hlt : j < dev.joints.length) :
    dev.joints.get ⟨j, hlt⟩ = jt := by
  rcases List.getElem?_eq_some.1 h with ⟨hlt2, heq⟩
  simpa using heq

theorem parentsOk_lookup (dev : Device) (hp : dev.parentsOk) {j : ℕ}
    {jt : Joint} (h : dev.joints[j]? = some jt) {p : ℕ}
    (hpar : jt.parentIndex = some p) : p < j := by
  have hlt := lookup_lt dev h
  exact hp j hlt p (by rw [lookup_get dev h hlt]; exact hpar)

theorem chainList_none (dev : Device) (fuel : ℕ) :
    chainList dev fuel none = [] := by
  cases fuel <;> rfl

theorem chainList_cons (dev : Device) (fuel : ℕ) {j : ℕ} {jt : Joint}
    (hj : j ≠ 0) (hlook : dev.joints[j]? = some jt) :
    chainList dev (fuel + 1) (some j)
      = j :: chainList dev fuel jt.parentIndex := by
  simp [chainList, hj, hlook]

theorem chainList_le (dev : Device) (hp : dev.parentsOk) :
    ∀ (fuel j k : ℕ), k ∈ chainList dev fuel (some j) → k ≤ j := by
  intro fuel
  induction fuel with
  | zero => intro j k hk; simp [chainList] at hk
  | succ fuel ih =>
    intro j k hk
    by_cases hj : j = 0
    · simp [chainList, hj] at hk
    · cases hlook : dev.joints[j]? with
      | none => simp [chainList, hj, hlook] at hk
      | some jt =>
        rw [chainList_cons dev fuel hj hlook] at hk
        rcases List.mem_cons.1 hk with rfl | hk2
        · exact le_refl _
        · cases hpar : jt.parentIndex with
          | none => rw [hpar, chainList_none] at hk2; simp at hk2
          | some p =>
            rw [hpar] at hk2
            have h1 := ih p k hk2
            have h2 := parentsOk_lookup dev hp hlook hpar
            omega

theorem chainList_pairwise (dev : Device) (hp : dev.parentsOk) :
    ∀ (fuel : ℕ) (o : Option ℕ),
      (chainList dev fuel o).Pairwise (fun a b => b < a) := by
  intro fuel
  induction fuel with
  | zero => intro o; simp [chainList]
  | succ fuel ih =>
    intro o
    match o with
    | none => rw [chainList_none]; exact List.Pairwise.nil
    | some j =>
      by_cases hj : j = 0
      · simp [chainList, hj]
      · cases hlook : dev.joints[j]? with
        | none => simp [chainList, hj, hlook]
        | some jt =>
          rw [chainList_cons dev fuel hj hlook]
          refine List.Pairwise.cons ?_ (ih jt.parentIndex)
          intro k hk
          cases hpar : jt.parentIndex with
          | none => rw [hpar, chainList_none] at hk; simp at hk
          | some p =>
            rw [hpar] at hk
            have h1 := chainList_le dev hp fuel p k hk
            have h2 := parentsOk_lookup dev hp hlook hpar
            omega

theorem chainList_nodup (dev : Device) (hp : dev.parentsOk) (fuel : ℕ)
    (o : Option ℕ) : (chainList dev fuel o).Nodup :=
  (chainList_pairwise dev hp fuel o).imp (fun h => (Nat.ne_of_lt h).symm)

theorem chainList_valid (dev : Device) :
    ∀ (fuel : ℕ) (o : Option ℕ) (k : ℕ), k ∈ chainList dev fuel o →
      k ≠ 0 ∧ ∃ jt, dev.joints[k]? = some jt := by
  intro fuel
  induction fuel with
  | zero => intro o k hk; simp [chainList] at hk
  | succ fuel ih =>
    intro o k hk
    match o with
    | none => rw [chainList_none] at hk; simp at hk
    | some j =>
      by_cases hj : j = 0
      · simp [chainList, hj] at hk
      · cases hlook : dev.joints[j]? with
        | none => simp [chainList, hj, hlook] at hk
        | some jt =>
          rw [chainList_cons dev fuel hj hlook] at hk
          rcases List.mem_cons.1 hk with rfl | hk2
          · exact ⟨hj, jt, hlook⟩
          · exact ih _ k hk2

theorem inRangeB_unique (dev : Device) (rk sz : Joint → ℕ) (total : ℕ)
    (hr : dev.rangesOk rk sz total) {a b v : ℕ}
    (ha : inRangeB dev rk sz a v = true)
    (hb : inRangeB dev rk sz b v = true) : a = b := by
  unfold inRangeB at ha hb
  cases hla : dev.joints[a]? with
  | none => rw [hla] at ha; exact absurd ha (by simp)
  | some ja =>
    cases hlb : dev.joints[b]? with
    | none => rw [hlb] at hb; exact absurd hb (by simp)
    | some jb =>
      rw [hla] at ha
      rw [hlb] at hb
      have ha2 : rk ja ≤ v ∧ v < rk ja + sz ja := of_decide_eq_true ha
      have hb2 : rk jb ≤ v ∧ v < rk jb + sz jb := of_decide_eq_true hb
      by_contra hne
      have hlta := lookup_lt dev hla
      have hltb := lookup_lt dev hlb
      have hd := hr.2 a hlta b hltb hne
      rw [lookup_get dev hla hlta, lookup_get dev hlb hltb] at hd
      omega

theorem countP_le_one (l : List ℕ) (p : ℕ → Bool) (hnd : l.Nodup)
    (hu : ∀ a ∈ l, ∀ b ∈ l, p a = true → p b = true → a = b) :
    l.countP p ≤ 1 := by
  induction l with
  | nil => simp
  | cons a t ih =>
    rw [List.countP_cons]
    by_cases hpa : p a = true
    · have ht : t.countP p = 0 := by
        rw [List.countP_eq_zero]
        intro b hb hpb
        have hab : a = b :=
          hu a (List.mem_cons_self a t) b (List.mem_cons_of_mem a hb) hpa hpb
        exact (List.nodup_cons.1 hnd).1 (hab ▸ hb)
      simp [ht, hpa]
    · have hpa2 : (if p a then 1 else 0) = 0 := by simp [hpa]
      rw [hpa2, Nat.add_zero]
      exact ih (List.nodup_cons.1 hnd).2
        (fun x hx y hy => hu x (List.mem_cons_of_mem _ hx) y
          (List.mem_cons_of_mem _ hy))

theorem parity_eq_any (l : List ℕ) (p : ℕ → Bool) (h1 : l.countP p ≤ 1) :
    decide (l.countP p % 2 = 1) = l.any p := by
  rcases Nat.le_one_iff_eq_zero_or_eq_one.1 h1 with h0 | h1
  · rw [h0, List.any_eq_false.2 (fun a ha => by
      simpa using List.countP_eq_zero.1 h0 a ha)]
    rfl
  · rw [h1, List.any_eq_true.2 ?_]
    · rfl
    · rcases List.countP_pos_iff.1 (lt_of_lt_of_eq Nat.zero_lt_one h1.symm)
        with ⟨a, ha, hpa⟩
      exact ⟨a, ha, hpa⟩

theorem relPoseVariables_unfold (dev : Device) (rk sz : Joint → ℕ)
    (total : ℕ) (j1 : Option ℕ) {j2 : ℕ} {jt2 : Joint}
    (hj2 : dev.joints[j2]? = some jt2) :
    relPoseVariables dev rk sz total j1 j2
      = chainToggle dev rk sz dev.joints.length jt2.parentIndex
          (chainToggle dev rk sz dev.joints.length j1
            (Array.mkArray total false)) := by
  unfold relPoseVariables
  rw [hj2]

theorem relPoseVariables_getD (dev : Device) (rk sz : Joint → ℕ) (total : ℕ)
    (hp : dev.parentsOk) (hr : dev.rangesOk rk sz total) (j1 : Option ℕ)
    {j2 : ℕ} {jt2 : Joint} (hj2 : dev.joints[j2]? = some jt2) (v : ℕ)
    (hv : v < total) :
    (relPoseVariables dev rk sz total j1 j2).getD v false
      = Bool.xor
          ((chainList dev dev.joints.length j1).any
            (fun k => inRangeB dev rk sz k v))
          ((chainList dev dev.joints.length jt2.parentIndex).any
            (fun k => inRangeB dev rk sz k v)) := by
  have hbgen : ∀ (fuel : ℕ) (o : Option ℕ) (conf : Array Bool),
      conf.size = total →
      ∀ k ∈ chainList dev fuel o, ∀ jt, dev.joints[k]? = some jt →
        rk jt + sz jt ≤ conf.size := by
    intro fuel o conf hsz k hk jt hkl
    have hlt := lookup_lt dev hkl
    have hb := hr.1 k hlt
    rw [lookup_get dev hkl hlt] at hb
    omega
  have hs0 : (Array.mkArray total false).size = total := Array.size_mkArray _ _
  have hs1 : (chainToggle dev rk sz dev.joints.length j1
      (Array.mkArray total false)).size = total := by
    rw [chainToggle_size]; exact hs0
  rw [relPoseVariables_unfold dev rk sz total j1 hj2,
    chainToggle_getD dev rk sz _ _ _ v (by rw [hs1]; exact hv)
      (hbgen _ _ _ hs1),
    chainToggle_getD dev rk sz _ _ _ v (by rw [hs0]; exact hv)
      (hbgen _ _ _ hs0)]
  have hmk : (Array.mkArray total false).getD v false = false := by
    rw [getD_of_lt _ _ _ (by rw [hs0]; exact hv)]
    exact Array.getElem_mkArray _ _ _
  rw [hmk]
  have hpar : ∀ o : Option ℕ,
      decide ((chainList dev dev.joints.length o).countP
        (fun k => inRangeB dev rk sz k v) % 2 = 1)
      = (chainList dev dev.joints.length o).any
          (fun k => inRangeB dev rk sz k v) := by
    intro o
    apply parity_eq_any
    apply countP_le_one _ _ (chainList_nodup dev hp _ _)
    intro a _ b _ hpa hpb
    exact inRangeB_unique dev rk sz total hr hpa hpb
  rw [hpar, hpar, Bool.false_xor]

theorem relPoseVariables_size (dev : Device) (rk sz : Joint → ℕ) (total : ℕ)
    (j1 : Option ℕ) (j2 : ℕ) :
    (relPoseVariables dev rk sz total j1 j2).size = total := by
  unfold relPoseVariables
  cases hj2 : dev.joints[j2]? with
  | none => rw [chainToggle_size, Array.size_mkArray]
  | some jt2 => rw [chainToggle_size, chainToggle_size, Array.size_mkArray]

theorem relPoseVariables_j2_false (dev : Device) (rk sz : Joint → ℕ)
    (total : ℕ) (hp : dev.parentsOk) (hr : dev.rangesOk rk sz total)
    (j1 : Option ℕ) {j2 : ℕ} {jt2 : Joint}
    (hj2 : dev.joints[j2]? = some jt2)
    (hch : j2 ∉ chainList dev dev.joints.length j1) (v : ℕ)
    (hv1 : rk jt2 ≤ v) (hv2 : v < rk jt2 + sz jt2) :
    (relPoseVariables dev rk sz total j1 j2).getD v false = false := by
  have hlt := lookup_lt dev hj2
  have hbound := hr.1 j2 hlt
  rw [lookup_get dev hj2 hlt] at hbound
  have hv : v < total := by omega
  rw [relPoseVariables_getD dev rk sz total hp hr j1 hj2 v hv]
  have hj2in : inRangeB dev rk sz j2 v = true := by
    unfold inRangeB
    rw [hj2]
    exact decide_eq_true ⟨hv1, hv2⟩
  have hany1 : (chainList dev dev.joints.length j1).any
      (fun k => inRangeB dev rk sz k v) = false := by
    rw [List.any_eq_false]
    intro k hk hkin
    exact hch ((inRangeB_unique dev rk sz total hr hkin hj2in) ▸ hk)
  have hany2 : (chainList dev dev.joints.length jt2.parentIndex).any
      (fun k => inRangeB dev rk sz k v) = false := by
    rw [List.any_eq_false]
    intro k hk hkin
    have hkj2 : k = j2 := inRangeB_unique dev rk sz total hr hkin hj2in
    cases hpar : jt2.parentIndex with
    | none => rw [hpar, chainList_none] at hk; simp at hk
    | some p =>
      rw [hpar] at hk
      have h1 := chainList_le dev hp _ p k hk
      have h2 := parentsOk_lookup dev hp hj2 hpar
      omega
  rw [hany1, hany2]
  rfl

theorem inSegments_nil (v : ℕ) : ¬inSegments [] v := by
  rintro ⟨s, hs, _⟩
  exact List.not_mem_nil s hs

theorem inSegments_cons (s : Segment) (l : Segments) (v : ℕ) :
    inSegments (s :: l) v ↔ (s.1 ≤ v ∧ v < s.1 + s.2) ∨ inSegments l v := by
  unfold inSegments
  constructor
  · rintro ⟨t, ht, h1, h2⟩
    rcases List.mem_cons.1 ht with rfl | ht2
    · exact Or.inl ⟨h1, h2⟩
    · exact Or.inr ⟨t, ht2, h1, h2⟩
  · rintro (⟨h1, h2⟩ | ⟨t, ht, h1, h2⟩)
    · exact ⟨s, List.mem_cons_self _ _, h1, h2⟩
    · exact ⟨t, List.mem_cons_of_mem _ ht, h1, h2⟩

theorem inSegments_shrink (l : Segments) (v : ℕ) :
    inSegments (BlockIndex.shrink l) v ↔ inSegments l v := by
  induction l with
  | nil => exact Iff.rfl
  | cons s r ih =>
    have hs : BlockIndex.shrink (s :: r)
        = (match BlockIndex.shrink r with
           | [] => [s]
           | t :: r2 =>
             if s.1 + s.2 = t.1 then (s.1, s.2 + t.2) :: r2
             else s :: t :: r2) := rfl
    rw [hs]
    cases hsr : BlockIndex.shrink r with
    | nil =>
      have hr : ¬inSegments r v := by
        rw [← ih, hsr]
        exact inSegments_nil v
      rw [inSegments_cons, inSegments_cons]
      constructor
      · rintro (h | h)
        · exact Or.inl h
        · exact absurd h (inSegments_nil v)
      · rintro (h | h)
        · exact Or.inl h
        · exact absurd h hr
    | cons t r2 =>
      dsimp only
      have hrv : inSegments r v ↔ (t.1 ≤ v ∧ v < t.1 + t.2) ∨ inSegments r2 v := by
        rw [← ih, hsr, inSegments_cons]
      by_cases hadj : s.1 + s.2 = t.1
      · rw [if_pos hadj, inSegments_cons, inSegments_cons, hrv]
        dsimp only
        constructor
        · rintro (⟨h1, h2⟩ | h)
          · by_cases hlt : v < s.1 + s.2
            · exact Or.inl ⟨h1, hlt⟩
            · exact Or.inr (Or.inl ⟨by omega, by omega⟩)
          · exact Or.inr (Or.inr h)
        · rintro (⟨h1, h2⟩ | ⟨h1, h2⟩ | h)
          · exact Or.inl ⟨h1, by omega⟩
          · exact Or.inl ⟨by omega, by omega⟩
          · exact Or.inr h
      · rw [if_neg hadj, inSegments_cons, inSegments_cons, inSegments_cons,
          hrv]

theorem inSegments_unit_segments (a : Array Bool) (v : ℕ) :
    inSegments ((List.range a.size).filterMap
        (fun i => if a.getD i false then some ((i, 1) : Segment) else none)) v
      ↔ (v < a.size ∧ a.getD v false = true) := by
  unfold inSegments
  constructor
  · rintro ⟨s, hs, hv1, hv2⟩
    rcases List.mem_filterMap.1 hs with ⟨i, hi, hfi⟩
    by_cases hai : a.getD i false = true
    · rw [if_pos hai] at hfi
      cases hfi
      have hvi : v = i := by
        dsimp only at hv1 hv2
        omega
      subst hvi
      exact ⟨List.mem_range.1 hi, hai⟩
    · rw [if_neg hai] at hfi
      cases hfi
  · rintro ⟨hvs, hav⟩
    refine ⟨(v, 1), List.mem_filterMap.2 ⟨v, List.mem_range.2 hvs, ?_⟩,
      le_refl v, by omega⟩
    rw [if_pos hav]

theorem inSegments_vectorOfBoolToIntervals (a : Array Bool) (v : ℕ) :
    inSegments (vectorOfBoolToIntervals a) v
      ↔ (v < a.size ∧ a.getD v false = true) := by
  unfold vectorOfBoolToIntervals
  rw [inSegments_shrink, inSegments_unit_segments]

theorem relPose_disjoint_generic (dev : Device) (rk sz : Joint → ℕ)
    (total : ℕ) (hp : dev.parentsOk) (hr : dev.rangesOk rk sz total)
    (j1 : Option ℕ) {j2 : ℕ} {jt2 : Joint}
    (hj2 : dev.joints[j2]? = some jt2)
    (hch : j2 ∉ chainList dev dev.joints.length j1) (v : ℕ)
    (hin : inSegments (vectorOfBoolToIntervals
      (relPoseVariables dev rk sz total j1 j2)) v) :
    ¬inSegments [(rk jt2, sz jt2)] v := by
  intro hout
  rcases (inSegments_cons _ _ _).1 hout with ⟨h1, h2⟩ | habs
  · rcases (inSegments_vectorOfBoolToIntervals _ _).1 hin with ⟨hvs, htrue⟩
    have hfalse := relPoseVariables_j2_false dev rk sz total hp hr j1 hj2
      hch v h1 h2
    rw [hfalse] at htrue
    cases htrue
  · exact absurd habs (inSegments_nil v)

/-- A three-joint device with two branches: joint 0 is the universe,
joints 1 and 2 both hang from it, each with one configuration and one
velocity variable. -/
def wDevice : Device :=
  ⟨[⟨none, 0, 0, 0, 0⟩, ⟨some 0, 0, 1, 0, 1⟩, ⟨some 0, 1, 1, 1, 1⟩], 2, 2⟩

/-- A three-joint serial chain: joint 0 is the universe, joint 1 hangs
from it and joint 2 from joint 1; each movable joint has one configuration
and one velocity variable. -/
def cexDevice : Device :=
  ⟨[⟨none, 0, 0, 0, 0⟩, ⟨some 0, 0, 1, 0, 1⟩, ⟨some 1, 1, 1, 1, 1⟩], 2, 2⟩

/-- C6 counterexample: on the serial chain `cexDevice` with joint1 = 2 a
descendant of joint2 = 1, the computed input-configuration set contains
joint2's own configuration variable (index 0), which also lies in the
output interval `jointConfInterval`, refuting both the claimed exclusion
of joint2's variables from the input set and the claimed input/output
disjointness. -/
theorem relative_pose_input_contains_joint2_variable :
    inSegments (inputConfVariables cexDevice (some 2) 1) 0
    ∧ inSegments (jointConfInterval cexDevice 1) 0 := by
  constructor <;> decide

/-- C6 amended: for a well-formed device, provided joint2 is not on
joint1's chain (it is neither joint1 nor an ancestor of joint1), the
input-configuration (resp. input-velocity) mask equals, at every variable,
the exclusive or of membership in the ranges of joint1's chain and of
joint2's parent's chain (the double-toggle cancellation of common
ancestors); it is false on every one of joint2's own configuration (resp.
velocity) variables; the resulting input segments are disjoint from
`jointConfInterval` (resp. `jointVelInterval`) of joint2; and that output
interval is exactly joint2's configuration (resp. velocity) range. -/
theorem relative_pose_input_output_variables
    (dev : Device) (j1 : Option ℕ) (j2 : ℕ) (jt2 : Joint)
    (hwf : dev.wf) (hj2 : dev.joints[j2]? = some jt2)
    (hch : j2 ∉ chainList dev dev.joints.length j1) :
    ((∀ v, v < dev.configSize →
        (relPoseConfVariables dev j1 j2).getD v false
          = Bool.xor
              ((chainList dev dev.joints.length j1).any
                (fun k => inRangeB dev (fun jt => jt.rankInConfiguration)
                  (fun jt => jt.configSize) k v))
              ((chainList dev dev.joints.length jt2.parentIndex).any
                (fun k => inRangeB dev (fun jt => jt.rankInConfiguration)
                  (fun jt => jt.configSize) k v)))
      ∧ (∀ v, jt2.rankInConfiguration ≤ v →
          v < jt2.rankInConfiguration + jt2.configSize →
          (relPoseConfVariables dev j1 j2).getD v false = false)
      ∧ (∀ v, inSegments (inputConfVariables dev j1 j2) v →
          ¬inSegments (jointConfInterval dev j2) v)
      ∧ (∀ v, inSegments (jointConfInterval dev j2) v ↔
          (jt2.rankInConfiguration ≤ v
            ∧ v < jt2.rankInConfiguration + jt2.configSize)))
    ∧ ((∀ v, v < dev.numberDof →
        (relPoseVelVariables dev j1 j2).getD v false
          = Bool.xor
              ((chainList dev dev.joints.length j1).any
                (fun k => inRangeB dev (fun jt => jt.rankInVelocity)
                  (fun jt => jt.numberDof) k v))
              ((chainList dev dev.joints.length jt2.parentIndex).any
                (fun k => inRangeB dev (fun jt => jt.rankInVelocity)
                  (fun jt => jt.numberDof) k v)))
      ∧ (∀ v, jt2.rankInVelocity ≤ v →
          v < jt2.rankInVelocity + jt2.numberDof →
          (relPoseVelVariables dev j1 j2).getD v false = false)
      ∧ (∀ v, inSegments (inputVelocityVariables dev j1 j2) v →
          ¬inSegments (jointVelInterval dev j2) v)
      ∧ (∀ v, inSegments (jointVelInterval dev j2) v ↔
          (jt2.rankInVelocity ≤ v ∧ v < jt2.rankInVelocity + jt2.numberDof))) := by
  obtain ⟨hp, hrC, hrV⟩ := hwf
  have hciC : jointConfInterval dev j2
      = [(jt2.rankInConfiguration, jt2.configSize)] := by
    unfold jointConfInterval
    rw [hj2]
  have hciV : jointVelInterval dev j2
      = [(jt2.rankInVelocity, jt2.numberDof)] := by
    unfold jointVelInterval
    rw [hj2]
  refine ⟨⟨?_, ?_, ?_, ?_⟩, ?_, ?_, ?_, ?_⟩
  · intro v hv
    exact relPoseVariables_getD dev _ _ dev.configSize hp hrC j1 hj2 v hv
  · intro v h1 h2
    exact relPoseVariables_j2_false dev _ _ dev.configSize hp hrC j1 hj2
      hch v h1 h2
  · intro v hin
    rw [hciC]
    exact relPose_disjoint_generic dev _ _ dev.configSize hp hrC j1 hj2
      hch v hin
  · intro v
    rw [hciC, inSegments_cons]
    constructor
    · rintro (h | h)
      · exact h
      · exact absurd h (inSegments_nil v)
    · exact fun h => Or.inl h
  · intro v hv
    exact relPoseVariables_getD dev _ _ dev.numberDof hp hrV j1 hj2 v hv
  · intro v h1 h2
    exact relPoseVariables_j2_false dev _ _ dev.numberDof hp hrV j1 hj2
      hch v h1 h2
  · intro v hin
    rw [hciV]
    exact relPose_disjoint_generic dev _ _ dev.numberDof hp hrV j1 hj2
      hch v hin
  · intro v
    rw [hciV, inSegments_cons]
    constructor
    · rintro (h | h)
      · exact h
      · exact absurd h (inSegments_nil v)
    · exact fun h => Or.inl h

/-- Witness for the C6 amended theorem on the two-branch device
`wDevice`, with joint1 = 1 and joint2 = 2: the output interval covers
joint2's configuration variable 1. -/
theorem relative_pose_input_output_variables_witness :
    inSegments (jointConfInterval wDevice 2) 1 :=
  (((relative_pose_input_output_variables wDevice (some 1) 2
      ⟨some 0, 1, 1, 1, 1⟩ (by decide) (by decide) (by decide)).1).2.2.2
    1).mpr (by decide)

end HppConstraints
